import Mathlib

/-!
# Verification of the `myls` directory-listing utility

This file gives a shallow embedding, in Lean 4, of the core algorithms of the
`myls` program (entry sorting, git status aggregation and propagation, column
layout, placeholder attachment, and the scan/exit wiring), together with
theorems settling the specification's claims about them.

Conventions of the embedding:

* Absolute filesystem paths are modelled as lists of path components
  (`Path := List String`); the repository root is some fixed component list,
  `filepath.Join root rel` is list append, and `filepath.Dir` drops the last
  component.  This mirrors the source's use of cleaned absolute paths.
* Go maps from paths to status strings become functions `Path → Option String`
  updated pointwise, exactly as the source reads and writes its `map[string]string`.
* External effects (lstat, glob, readdir, the `git status` subprocess) are
  passed in as pure oracle parameters, so every function of the embedding is
  executable on concrete inputs.
-/

namespace Myls

/-- An absolute path, as a list of components from the filesystem root. -/
abbrev Path := List String

/-- A repository status map: absolute path to 2-character status code.
Mirrors the Go `map[string]string` built by `gitStatusesForDir`. -/
abbrev Stats := Path → Option String

/-- The empty status map (`stats := make(map[string]string)`). -/
def emptyStats : Stats := fun _ => none

/-- Rank of a git status code, from `gitStatusesForDir`'s local `priority`
function: ignored (`"!!"`) is 1, untracked (`"??"`) is 2, anything else is 3. -/
def priority (signs : String) : Nat :=
  if signs = "!!" then 1
  else if signs = "??" then 2
  else 3

/-- The merge rule applied at every store site of `gitStatusesForDir`:
`if prev, ok := stats[full]; !ok || priority(prev) < priority(signs)` keeps the
incoming code, otherwise the previously stored code wins. -/
def mergeCode (prev : Option String) (signs : String) : String :=
  match prev with
  | none => signs
  | some p => if priority p < priority signs then signs else p

/-- Store `signs` at `p` in `stats` under the priority-merge rule. -/
def storeMerge (stats : Stats) (p : Path) (signs : String) : Stats :=
  fun q => if q = p then some (mergeCode (stats p) signs) else stats q

/-- Rank of an optional stored code: an absent entry ranks below every code.
Used to phrase monotonicity of the merge uniformly. -/
def rankO (o : Option String) : Nat :=
  match o with
  | none => 0
  | some s => priority s

/-- The ancestor-propagation loop of `gitStatusesForDir` (lines 999–1014):
starting from `dirPath = filepath.Dir(full)`, store the record's code at every
ancestor directory, walking up one component at a time and stopping after the
repository root itself has been updated.  `relAnc` is the ancestor's path
relative to `root`; the loop's `dirPath == root` break corresponds to
`relAnc = []`. -/
def propagateUp (root : Path) (signs : String) : List String → Stats → Stats
  | [], stats => storeMerge stats (root ++ ([] : List String)) signs
  | a :: as, stats =>
    let stats' := storeMerge stats (root ++ a :: as) signs
    propagateUp root signs (a :: as).dropLast stats'
  termination_by relAnc _ => relAnc.length
  decreasing_by
    simp [List.length_dropLast]

/-- Processing of one parsed status record `(signs, rel)` by
`gitStatusesForDir`: store at `full = filepath.Join(root, rel)` under the
priority merge, then propagate to every ancestor from `filepath.Dir(full)` up
to and including `root`.  (A parsed record always has a non-empty relative
path; if `rel` were empty the propagation loop would not run, since
`filepath.Dir(root)` is shorter than `root`.) -/
def processRecord (root : Path) (stats : Stats) (rec : String × List String) : Stats :=
  let signs := rec.1
  let full := root ++ rec.2
  let stats1 := storeMerge stats full signs
  match rec.2 with
  | [] => stats1
  | _ :: _ => propagateUp root signs rec.2.dropLast stats1

/-- The record-processing loop of `gitStatusesForDir` over the whole parsed
query output, starting from the empty map. -/
def gitStatuses (root : Path) (recs : List (String × List String)) : Stats :=
  recs.foldl (processRecord root) emptyStats

/-! ### The ancestor-monotonicity invariant of the status map -/

/-- Invariant of the status map under construction: under the repository root,
the rank stored at any path never exceeds the rank stored at its parent
directory.  (Absent entries have rank 0.) -/
def GoodStats (root : Path) (stats : Stats) : Prop :=
  ∀ rel : List String, rel ≠ [] →
    rankO (stats (root ++ rel)) ≤ rankO (stats (root ++ rel.dropLast))

/-! ### Entries, metadata and the sort engine

File metadata (`os.FileInfo`) is embedded as the bits the program reads:
directory/symlink/pipe/socket bits and the executable bit of the mode, plus
size and modification time.  The result of the `os.Stat` call that `isDir`
performs on symlinks is folded into the entry as `statResolvesDir` (true when
the stat succeeded and the target is a directory). -/

structure FileInfo where
  isDirI : Bool
  isSymlink : Bool
  isPipe : Bool
  isSocket : Bool
  isExec : Bool
  hiddenAttr : Bool
  size : Int
  modTime : Int
  deriving DecidableEq, Repr

/-- An entry being listed: display name, absolute path, metadata, git status.
Mirrors the `entry` struct of the source. -/
structure Entry where
  name : String
  path : Path
  info : FileInfo
  statResolvesDir : Bool
  gitStatus : String
  deriving DecidableEq, Repr

/-- `isDir` from the source: like `FileInfo.IsDir` but following symlinks via
a stat of the entry's path. -/
def isDir (e : Entry) : Bool :=
  e.info.isDirI || (e.info.isSymlink && e.statResolvesDir)

/-- `classify` from the source (unix build): the ls-style type indicator
appended to a display name, or none.  The switch checks, in order: symlink,
directory, named pipe, socket, executable bit. -/
def classify (e : Entry) : Option Char :=
  if e.info.isSymlink then some '@'
  else if e.info.isDirI then some '/'
  else if e.info.isPipe then some '|'
  else if e.info.isSocket then some '='
  else if e.info.isExec then some '*'
  else none

/-- ASCII case folding, modelling `strings.ToLower` on the ASCII-range names
the comparisons are specified for. -/
def toLowerStr (s : String) : String := s.map Char.toLower

/-- `strings.Compare` (and `cmp.Compare` on strings). -/
def compareStr (a b : String) : Int :=
  if a < b then -1 else if b < a then 1 else 0

/-- `cmp.Compare` on integers (sizes) and `time.Time.Compare` (mod times,
embedded as integers). -/
def compareInt (a b : Int) : Int :=
  if a < b then -1 else if b < a then 1 else 0

/-- `filepath.Ext`: the suffix of the name starting at the final dot,
empty if the name contains no dot. -/
def extOf (name : String) : String :=
  let rcs := name.data.reverse
  let pre := rcs.takeWhile (fun c => c ≠ '.')
  if pre.length = rcs.length then ""
  else String.mk ('.' :: pre.reverse)

/-- The primary sort key (`sortBy` in the source). -/
inductive SortKey where
  | name
  | extension
  | size
  | mtime
  | git
  deriving DecidableEq, Repr

/-- The runtime configuration bits the core reads (`options` in the source). -/
structure Options where
  all : Bool
  dir : Bool
  long : Bool
  reverse : Bool
  oneEntry : Bool
  dirsFirst : Bool
  git : Bool
  sort : SortKey
  termWidth : Nat
  deriving DecidableEq, Repr

/-- The name comparator of `sortEntries`' first pass. -/
def cmpName (rev : Bool) (a b : Entry) : Int :=
  if rev then compareStr (toLowerStr b.name) (toLowerStr a.name)
  else compareStr (toLowerStr a.name) (toLowerStr b.name)

/-- The extension comparator of the secondary pass. -/
def cmpExt (rev : Bool) (a b : Entry) : Int :=
  if rev then compareStr (toLowerStr (extOf b.name)) (toLowerStr (extOf a.name))
  else compareStr (toLowerStr (extOf a.name)) (toLowerStr (extOf b.name))

/-- The size comparator of the secondary pass. -/
def cmpSize (rev : Bool) (a b : Entry) : Int :=
  if rev then compareInt b.info.size a.info.size
  else compareInt a.info.size b.info.size

/-- The modification-time comparator of the secondary pass. -/
def cmpTime (rev : Bool) (a b : Entry) : Int :=
  if rev then compareInt b.info.modTime a.info.modTime
  else compareInt a.info.modTime b.info.modTime

/-- The git-status comparator of the secondary pass. -/
def cmpGit (rev : Bool) (a b : Entry) : Int :=
  if rev then compareStr (toLowerStr b.gitStatus) (toLowerStr a.gitStatus)
  else compareStr (toLowerStr a.gitStatus) (toLowerStr b.gitStatus)

/-- The directories-first comparator of the final pass, verbatim from the
source: 0 when both sides agree on `isDir`, directories first otherwise. -/
def cmpDirsFirst (a b : Entry) : Int :=
  if isDir a = isDir b then 0 else if isDir a then -1 else 1

/-- Stable insertion of `x` into `l`: `x` is placed before the first element
it does not compare strictly greater than.  Elements comparing equal to `x`
that are already in `l` stay behind `x`, which is what stability demands when
`x` precedes them in the input. -/
def insertCmp (cmp : α → α → Int) (x : α) : List α → List α
  | [] => [x]
  | y :: ys => if cmp x y ≤ 0 then x :: y :: ys else y :: insertCmp cmp x ys

/-- Model of the Go library function `slices.SortStableFunc`: the library
contract (result sorted under `cmp`, elements comparing equal kept in input
order) determines the output uniquely for the total preorders this program
passes, and stable insertion sort realizes it. -/
def sortStableFunc (cmp : α → α → Int) : List α → List α
  | [] => []
  | x :: xs => insertCmp cmp x (sortStableFunc cmp xs)

/-- Model of the Go library function `slices.SortFunc`, used only for the
initial name pass.  The library guarantees just a sorted result and
explicitly does not guarantee stability; this model fixes one
contract-satisfying behavior (the stable one).  No theorem below relies on
stability of this pass. -/
def sortFunc (cmp : α → α → Int) : List α → List α := sortStableFunc cmp

/-- The first two passes of `sortEntries`: the name pass, then the optional
stable secondary pass selected by `opt.sort`. -/
def sortKeyPasses (opt : Options) (ents : List Entry) : List Entry :=
  let ents1 := sortFunc (cmpName opt.reverse) ents
  match opt.sort with
  | .name => ents1
  | .extension => sortStableFunc (cmpExt opt.reverse) ents1
  | .size => sortStableFunc (cmpSize opt.reverse) ents1
  | .mtime => sortStableFunc (cmpTime opt.reverse) ents1
  | .git => sortStableFunc (cmpGit opt.reverse) ents1

/-- `sortEntries` from the source: key passes, then, when `dirsFirst` is set,
the final stable directories-first pass. -/
def sortEntries (opt : Options) (ents : List Entry) : List Entry :=
  if opt.dirsFirst then sortStableFunc cmpDirsFirst (sortKeyPasses opt ents)
  else sortKeyPasses opt ents

/-! ### The short (grid) output layout

`printShort` computes, from the entries and the terminal width, a column
count and a row count, then walks the grid row by row; within a row it
prints cell `c` from entry index `c*rows + r` and breaks at the first index
past the end.  Name lengths are taken on the display name before the
classification suffix is appended, then one column position is reserved for
the suffix, exactly as in the source. -/

/-- `tabWidth` from the source. -/
def tabWidth : Nat := 8

/-- Display name with the classification suffix appended. -/
def displayName (e : Entry) : String :=
  match classify e with
  | some c => e.name.push c
  | none => e.name

/-- The display names of a batch, in order (`names` in the source). -/
def shortNames (ents : List Entry) : List String := ents.map displayName

/-- Width of the longest raw name (`nameWidth` before the `+ 1`). -/
def maxNameLen (ents : List Entry) : Nat :=
  ents.foldl (fun acc e => max acc e.name.length) 0

/-- `colTabs`: tab stops per column, from the padded name width. -/
def shortColTabs (ents : List Entry) : Nat :=
  (maxNameLen ents + 1) / tabWidth + 1

/-- `cols`: columns that fit the width, clamped to `[1, entryCount]`. -/
def shortCols (ents : List Entry) (w : Nat) : Nat :=
  min (max (w / (shortColTabs ents * tabWidth)) 1) ents.length

/-- `rows = ceil(entryCount / cols)` from the source. -/
def shortRows (ents : List Entry) (w : Nat) : Nat :=
  (ents.length + shortCols ents w - 1) / shortCols ents w

/-- The inner column loop of `printShort` for one row `r`: cells are taken at
indices `c*rows + r` for `c = 0, 1, ...` and the loop breaks at the first
index at or past the entry count, or when `c` reaches the column count. -/
def rowGo (names : List String) (rows n cols r : Nat) (c : Nat) : List String :=
  if h : c < cols then
    if c * rows + r < n then
      names.getD (c * rows + r) "" :: rowGo names rows n cols r (c + 1)
    else []
  else []
  termination_by cols - c

/-- The populated cells of row `r` of the grid. -/
def rowCells (ents : List Entry) (w : Nat) (r : Nat) : List String :=
  rowGo (shortNames ents) (shortRows ents w) ents.length (shortCols ents w) r 0

/-- The rows printed by `printShort`: the one-per-line fallback when a single
column fits, the column-major grid otherwise. -/
def printShortRows (ents : List Entry) (w : Nat) : List (List String) :=
  if shortCols ents w = 1 then (shortNames ents).map (fun s => [s])
  else (List.range (shortRows ents w)).map (fun r => rowCells ents w r)

/-- A regular-file metadata record (no special mode bits). -/
def plainInfo : FileInfo :=
  { isDirI := false, isSymlink := false, isPipe := false, isSocket := false,
    isExec := false, hiddenAttr := false, size := 0, modTime := 0 }

/-- A directory metadata record. -/
def dirInfo : FileInfo :=
  { plainInfo with isDirI := true }

/-- A plain file entry named `n`, used to instantiate theorems. -/
def fileEntry (n : String) : Entry :=
  { name := n, path := [n], info := plainInfo, statResolvesDir := false,
    gitStatus := "" }

/-- A directory entry named `n`, used to instantiate theorems. -/
def dirEntry (n : String) : Entry :=
  { name := n, path := [n], info := dirInfo, statResolvesDir := false,
    gitStatus := "" }

/-- Default options: every flag off, sort by name, 80-column terminal. -/
def optBase : Options :=
  { all := false, dir := false, long := false, reverse := false,
    oneEntry := false, dirsFirst := false, git := false, sort := .name,
    termWidth := 80 }

/-- Seven short plain names, as in the spec's grid scenario. -/
def ents7 : List Entry :=
  [fileEntry "a", fileEntry "b", fileEntry "c", fileEntry "d",
   fileEntry "e", fileEntry "f", fileEntry "g"]

/-! ### Status attachment

`gitStatusesForDir` is an external query plus cache from the point of view of
the attachment functions; it is passed in as a pure oracle
`statusOf : Path → Option Stats` (`none` models a nil map: no repository, or a
failed query).  The per-directory memoization (`dirCache`) of
`attachGitToFiles` only avoids repeated oracle calls and does not change the
result for a pure oracle, so it is not re-modelled. -/

/-- `strings.ReplaceAll(signs, " ", "-")` on a status code: a character-wise
replacement, since both pattern and replacement are single characters. -/
def replaceSpaceDash (signs : String) : String :=
  String.mk (signs.data.map (fun c => if c = ' ' then '-' else c))

/-- The directory whose repository is consulted for an entry, from
`attachGitToFiles`: the entry's own path for directories (it may be the repo
root), the parent directory otherwise. -/
def dirOfEntry (e : Entry) : Path :=
  if e.info.isDirI then e.path else e.path.dropLast

/-- Lookup of a path in an optional status map. -/
def lookupIn (o : Option Stats) (p : Path) : Option String :=
  o.bind (fun m => m p)

/-- The status record an entry receives in files mode, if any. -/
def lookupStatus (statusOf : Path → Option Stats) (e : Entry) : Option String :=
  lookupIn (statusOf (dirOfEntry e)) e.path

/-- One iteration of the first loop of `attachGitToFiles`: the possibly
updated entry, and whether this entry's directory produced a non-nil map
(the contribution to `showGit`). -/
def attachStep (statusOf : Path → Option Stats) (e : Entry) : Entry × Bool :=
  match statusOf (dirOfEntry e) with
  | none => (e, false)
  | some stats =>
    match stats e.path with
    | some signs => ({ e with gitStatus := replaceSpaceDash signs }, true)
    | none => (e, true)

/-- `attachGitToFiles`: look up each entry, remember whether any directory was
inside a repository with a readable status map, and only then replace empty
statuses with the `"--"` placeholder. -/
def attachGitToFiles (statusOf : Path → Option Stats) (ents : List Entry) :
    List Entry :=
  let pass := ents.map (attachStep statusOf)
  let ents1 := pass.map (fun p => p.1)
  if pass.any (fun p => p.2) then
    ents1.map (fun e => if e.gitStatus = "" then { e with gitStatus := "--" } else e)
  else ents1

/-- `attachGitToDir`: statuses for one directory's children from the
directory's repository; on a nil map nothing changes, otherwise every entry
receives its code or the placeholder. -/
def attachGitToDir (statusOf : Path → Option Stats) (dir : Path)
    (ents : List Entry) : List Entry :=
  match statusOf dir with
  | none => ents
  | some stats =>
    ents.map (fun e =>
      match stats e.path with
      | some signs => { e with gitStatus := replaceSpaceDash signs }
      | none => { e with gitStatus := "--" })

/-- An oracle describing a clean repository at `["r"]`: the query succeeds
and returns an empty status map. -/
def statusOfClean : Path → Option Stats :=
  fun d => if d = ["r"] then some emptyStats else none

/-- A file entry inside that repository, with no status record. -/
def entInClean : Entry :=
  { name := "a.txt", path := ["r", "a.txt"], info := plainInfo,
    statResolvesDir := false, gitStatus := "" }

/-! ### Record parsing and the two-character status invariant

The raw query output is NUL-delimited; each record is checked with
`len(rec) < 4 || rec[2] != ' '` and split into the two status characters and
the relative path.  Converting the relative path string into path components
(`filepath.FromSlash` plus the component structure of `filepath.Join`) is
abstracted as a `splitPath` parameter. -/

/-- Parse one raw record, mirroring the guard and slicing of
`gitStatusesForDir`; malformed records yield `none` and are skipped. -/
def parseRecord (splitPath : String → List String) (rec : List Char) :
    Option (String × List String) :=
  if rec.length < 4 ∨ rec.get? 2 ≠ some ' ' then none
  else some (String.mk (rec.take 2), splitPath (String.mk (rec.drop 3)))

/-- All parsed records of a raw query output (`continue` skips the rest). -/
def parseRecords (splitPath : String → List String) (raws : List (List Char)) :
    List (String × List String) :=
  raws.filterMap (parseRecord splitPath)

/-- Every status map value has exactly two characters. -/
def StatsLen2 (stats : Stats) : Prop :=
  ∀ p s, stats p = some s → s.length = 2

/-- The dispatch of `printEntries`: nothing for an empty batch, otherwise the
printer selected by the options. -/
inductive Dispatched where
  | nothing
  | long
  | onePerLine
  | short
  deriving DecidableEq, Repr

/-- `printEntries` from the source: an empty batch returns before any printer
runs; otherwise long mode wins over one-per-line, and the grid is the
default. -/
def printEntriesDispatch (opt : Options) (ents : List Entry) : Dispatched :=
  if ents.length = 0 then .nothing
  else if opt.long then .long
  else if opt.oneEntry then .onePerLine
  else .short

/-- The git column width `printLong` uses: the status length of the first
entry (the source comments that it is 0 or 2 for every entry).  The empty
case is unreachable because `printEntries` guards empty batches. -/
def printLongGitWidth (ents : List Entry) : Nat :=
  match ents with
  | [] => 0
  | e :: _ => e.gitStatus.length

/-- One concrete status map: `"??"` at `["r", "b.txt"]`. -/
def statsA : Stats := fun p => if p = ["r", "b.txt"] then some "??" else none

/-- An oracle with one repository at `["r"]` holding `statsA`. -/
def statusOfA : Path → Option Stats :=
  fun d => if d = ["r"] then some statsA else none

/-- An untracked file inside that repository. -/
def entB : Entry :=
  { name := "b.txt", path := ["r", "b.txt"], info := plainInfo,
    statResolvesDir := false, gitStatus := "" }

/-- A clean file inside that repository, with no status record. -/
def entA : Entry :=
  { name := "a.txt", path := ["r", "a.txt"], info := plainInfo,
    statResolvesDir := false, gitStatus := "" }

/-- A trivial path-splitting collaborator for concrete instances: the whole
relative path is one component. -/
def splitPath1 : String → List String := fun s => [s]

/-- A raw, NUL-split query output with a single modified file. -/
def rawsW : List (List Char) := [(" M b.txt").data]

/-- The status map `gitStatusesForDir` builds from `rawsW` at root `["r"]`. -/
def statsW : Stats := gitStatuses ["r"] (parseRecords splitPath1 rawsW)

/-- An oracle exposing only that repository. -/
def statusOfW : Path → Option Stats :=
  fun d => if d = ["r"] then some statsW else none

/-- The modified file of `rawsW` as an entry of the batch. -/
def entW : Entry :=
  { name := "b.txt", path := ["r", "b.txt"], info := plainInfo,
    statResolvesDir := false, gitStatus := "" }

/-! ### The status-query cache under concurrency

`gitStatusesForDir` is called from one goroutine per directory argument.  Its
interaction with the shared cache `gitRepos` is a straight-line protocol:

  lock; read `gitRepos[root]`; unlock;          (return on a hit)
  run the external query;                       (slow, lock not held)
  lock; write the outcome (map or nil); unlock.

This is embedded as a small-step machine over a set of tasks, each executing
that protocol for its root; a scheduler word picks which task performs its
next atomic step.  Acquiring the lock together with the guarded read (or the
guarded write) is collapsed into one atomic step, which is sound because
every other access to the cache is itself guarded by the same lock. -/

/-- Program counter of one task inside `gitStatusesForDir`. -/
inductive TaskPC where
  | start
  | check
  | query
  | wlock
  | write
  | done
  deriving DecidableEq, Repr

/-- One task: its position in the protocol, its resolved root, and whether
its external query would succeed (`ok = false` models the error path that
caches nil). -/
structure GitTask where
  pc : TaskPC
  root : Path
  ok : Bool
  deriving Repr

/-- The shared state: tasks, the `gitRepos` cache (root to outcome), the
mutex bit, and the log of executed external queries `(task, root)`. -/
structure CacheMachine where
  tasks : Nat → Option GitTask
  cache : Path → Option Bool
  lockHeld : Bool
  queries : List (Nat × Path)

/-- Pointwise task update. -/
def setTask (ts : Nat → Option GitTask) (t : Nat) (task : GitTask) :
    Nat → Option GitTask :=
  fun u => if u = t then some task else ts u

/-- One atomic step of task `t`; a blocked or finished task leaves the state
unchanged (the scheduler slot is wasted). -/
def stepTask (s : CacheMachine) (t : Nat) : CacheMachine :=
  match s.tasks t with
  | none => s
  | some task =>
    match task.pc with
    | .start =>
      if s.lockHeld then s
      else { s with lockHeld := true,
                    tasks := setTask s.tasks t { task with pc := .check } }
    | .check =>
      { s with lockHeld := false,
               tasks := setTask s.tasks t
                 { task with
                   pc := if (s.cache task.root).isSome then .done else .query } }
    | .query =>
      { s with queries := s.queries ++ [(t, task.root)],
               tasks := setTask s.tasks t { task with pc := .wlock } }
    | .wlock =>
      if s.lockHeld then s
      else { s with lockHeld := true,
                    tasks := setTask s.tasks t { task with pc := .write } }
    | .write =>
      { s with lockHeld := false,
               cache := fun r => if r = task.root then some task.ok else s.cache r,
               tasks := setTask s.tasks t { task with pc := .done } }
    | .done => s

/-- Run a whole schedule. -/
def runSched (s : CacheMachine) (sched : List Nat) : CacheMachine :=
  sched.foldl stepTask s

/-- Tasks at the start of the protocol, one per `(root, outcome)` pair. -/
def startTasks (roots : List (Path × Bool)) : Nat → Option GitTask :=
  fun t => (roots[t]?).map (fun rb => { pc := .start, root := rb.1, ok := rb.2 })

/-- The machine before any step: empty cache, lock free, no queries. -/
def startMachine (roots : List (Path × Bool)) : CacheMachine :=
  { tasks := startTasks roots, cache := fun _ => none, lockHeld := false,
    queries := [] }

/-- Number of external queries task `t` has executed. -/
def queryCount (s : CacheMachine) (t : Nat) : Nat :=
  (s.queries.filter (fun q => q.1 == t)).length

/-- A task position from which the query is still ahead. -/
def PCActive (pc : TaskPC) : Prop :=
  pc = .start ∨ pc = .check ∨ pc = .query

/-- Per-task at-most-once invariant: an active task has executed no query,
and no task ever exceeds one. -/
def QueryInv (s : CacheMachine) : Prop :=
  ∀ t, (∀ task, s.tasks t = some task →
          (PCActive task.pc → queryCount s t = 0) ∧ queryCount s t ≤ 1) ∧
       (s.tasks t = none → queryCount s t = 0)

/-- A task that can no longer query: it is at `start`, `check` or `done`,
and if it has not finished, its root is already cached, so its next check
hits. -/
def Settled (s : CacheMachine) (t : Nat) : Prop :=
  ∀ task, s.tasks t = some task →
    (task.pc = .start ∨ task.pc = .check ∨ task.pc = .done) ∧
    ((task.pc = .start ∨ task.pc = .check) → (s.cache task.root).isSome = true)

/-! ### Entry collection, per-directory scanning and the exit policy

`collectEntries` and the per-directory goroutines of `main` touch the
filesystem through lstat, glob expansion, absolute-path resolution, readdir
and the `selfAndParent` pseudo-entries; these collaborators are passed in as
pure oracles.  Each directory argument's task writes only to its own result
slot, which the embedding renders as an elementwise `map`. -/

/-- `isHidden` from the source: a name starting with a dot, or the hidden
file attribute (used on Windows; always clear elsewhere). -/
def isHidden (e : Entry) : Bool :=
  e.name.startsWith "." || e.info.hiddenAttr

/-- The result of `collectEntries`, plus the error lines it reports. -/
structure CollectResult where
  files : List Entry
  dirs : List Entry
  errors : List String
  deriving Repr

/-- `collectEntries` from the source: default to `"."`, expand each pattern
(falling back to the literal path when the expansion is empty), lstat each
path (reporting and skipping failures), and split directories from files
unless `-d` forces file-like treatment. -/
def collectEntries (lstatO : String → Option FileInfo)
    (globO : String → List String) (absO : String → Path)
    (dirFlag : Bool) (args : List String) : CollectResult :=
  let args1 := if args.isEmpty then ["."] else args
  args1.foldl
    (fun acc pattern =>
      let paths := if (globO pattern).isEmpty then [pattern] else globO pattern
      paths.foldl
        (fun acc p =>
          match lstatO p with
          | none => { acc with errors := acc.errors ++ [p] }
          | some info =>
            let ent : Entry :=
              { name := p, path := absO p, info := info,
                statResolvesDir := false, gitStatus := "" }
            if !dirFlag && info.isDirI then { acc with dirs := acc.dirs ++ [ent] }
            else { acc with files := acc.files ++ [ent] })
        acc)
    { files := [], dirs := [], errors := [] }

/-- The exit decision of `main`: status 1 exactly when no argument yielded
any file or directory entry. -/
def mainExit1 (cr : CollectResult) : Bool :=
  cr.dirs.isEmpty && cr.files.isEmpty

/-- The body of one per-directory task: read the directory (a failure leaves
the slot empty), inject `.` and `..` or filter hidden entries, attach git
statuses in long git mode, and sort. -/
def processDir (readDirO : Path → Option (List Entry))
    (selfParentO : Path → List Entry) (statusOf : Path → Option Stats)
    (opt : Options) (d : Entry) : Option (List Entry) :=
  match readDirO d.path with
  | none => none
  | some ents =>
    let ents1 := if opt.all then selfParentO d.path ++ ents
                 else ents.filter (fun e => ! isHidden e)
    let ents2 := if opt.long && opt.git then attachGitToDir statusOf d.path ents1
                 else ents1
    some (sortEntries opt ents2)

/-- The result slots, one per directory argument, in input order. -/
def dirSections (readDirO : Path → Option (List Entry))
    (selfParentO : Path → List Entry) (statusOf : Path → Option Stats)
    (opt : Options) (dirs : List Entry) : List (Option (List Entry)) :=
  dirs.map (processDir readDirO selfParentO statusOf opt)

/-- The error lines of the scan phase: one per directory that failed to
read. -/
def scanErrors (readDirO : Path → Option (List Entry)) (dirs : List Entry) :
    List Path :=
  dirs.filterMap (fun d => if (readDirO d.path).isSome then none else some d.path)

/-- An lstat oracle where every path fails. -/
def lstatNone : String → Option FileInfo := fun _ => none

/-- A glob oracle with no matches (patterns are taken literally). -/
def globNone : String → List String := fun _ => []

/-- A trivial absolute-path resolver for concrete instances. -/
def absTriv : String → Path := fun s => [s]

/-- A directory reader where only `["ok"]` can be read. -/
def readDirD : Path → Option (List Entry) :=
  fun p => if p = ["ok"] then some [fileEntry "x"] else none

/-- No `.`/`..` pseudo-entries. -/
def selfParentNone : Path → List Entry := fun _ => []

/-- Two directory arguments: one that fails to read and one that succeeds. -/
def dirsD : List Entry := [dirEntry "bad", dirEntry "ok"]

/-! ## Theorems -/

/-! ### Basic facts about the priority merge -/

theorem priority_pos (s : String) : 1 ≤ priority s := by
  unfold priority
  split
  · omega
  split <;> omega

theorem rankO_some (s : String) : rankO (some s) = priority s := rfl

theorem rankO_none : rankO none = 0 := rfl

/-- The merge keeps one of its two arguments. -/
theorem mergeCode_cases (prev : Option String) (signs : String) :
    mergeCode prev signs = signs ∨ prev = some (mergeCode prev signs) := by
  unfold mergeCode
  match prev with
  | none => left; rfl
  | some p =>
    by_cases h : priority p < priority signs
    · simp [h]
    · simp [h]

/-- Rank of the merge result is the max of the ranks. -/
theorem rankO_mergeCode (prev : Option String) (signs : String) :
    priority (mergeCode prev signs) = max (rankO prev) (priority signs) := by
  unfold mergeCode
  match prev with
  | none =>
    simp [rankO]
  | some p =>
    by_cases h : priority p < priority signs
    · simp [h, rankO]
      omega
    · simp [h, rankO]
      omega

theorem storeMerge_at (stats : Stats) (p : Path) (signs : String) :
    storeMerge stats p signs p = some (mergeCode (stats p) signs) := by
  simp [storeMerge]

theorem storeMerge_ne (stats : Stats) (p q : Path) (signs : String) (h : q ≠ p) :
    storeMerge stats p signs q = stats q := by
  simp [storeMerge, h]

/-- Per-path rank after a merge-store: the touched path rises to the max of its
old rank and the incoming rank; every other path is unchanged. -/
theorem rankO_storeMerge (stats : Stats) (p q : Path) (signs : String) :
    rankO (storeMerge stats p signs q) =
      if q = p then max (rankO (stats p)) (priority signs) else rankO (stats q) := by
  by_cases h : q = p
  · subst h
    simp only [storeMerge, if_true, eq_self_iff_true]
    rw [rankO_some, rankO_mergeCode]
  · simp [storeMerge, h]

/-! ### Path prefix arithmetic -/

theorem take_dropLast_eq (l : List String) (j : Nat) (h : j + 1 ≤ l.length) :
    l.dropLast.take j = l.take j := by
  rw [List.dropLast_eq_take, List.take_take]
  congr 1
  omega

theorem dropLast_take_eq (l : List String) (j : Nat) (h : j ≤ l.length) :
    (l.take j).dropLast = l.take (j - 1) := by
  rw [List.dropLast_eq_take, List.take_take, List.length_take]
  congr 1
  omega

theorem append_take_inj {root : Path} {l : List String} {j k : Nat}
    (hj : j ≤ l.length) (hk : k ≤ l.length)
    (h : root ++ l.take j = root ++ l.take k) : j = k := by
  have h2 : l.take j = l.take k := by
    exact List.append_cancel_left h
  have h3 : (l.take j).length = (l.take k).length := by rw [h2]
  simp [List.length_take] at h3
  omega

/-! ### Per-path effect of the propagation loop -/

theorem propagateUp_not_touched_aux (root : Path) (signs : String) :
    ∀ (n : Nat) (relAnc : List String) (stats : Stats) (q : Path),
      relAnc.length ≤ n →
      (∀ j, j ≤ relAnc.length → q ≠ root ++ relAnc.take j) →
      propagateUp root signs relAnc stats q = stats q := by
  intro n
  induction n with
  | zero =>
    intro relAnc stats q hlen hq
    have hnil : relAnc = [] := List.eq_nil_of_length_eq_zero (by omega)
    subst hnil
    rw [propagateUp]
    exact storeMerge_ne _ _ _ _ (by simpa using hq 0 (by omega))
  | succ n ih =>
    intro relAnc stats q hlen hq
    match relAnc with
    | [] =>
      rw [propagateUp]
      exact storeMerge_ne _ _ _ _ (by simpa using hq 0 (by omega))
    | a :: as =>
      rw [propagateUp]
      rw [ih]
      · exact storeMerge_ne _ _ _ _ (by
          have := hq (as.length + 1) (by simp)
          simpa using this)
      · simp at hlen ⊢
        omega
      · intro j hj
        simp only [List.length_dropLast, List.length_cons, Nat.add_sub_cancel] at hj
        have := hq j (by simp; omega)
        rw [take_dropLast_eq]
        · exact this
        · simp
          omega

/-- A path not of the form `root ++ relAnc.take j` is untouched by the
propagation loop. -/
theorem propagateUp_not_touched (root : Path) (signs : String)
    (relAnc : List String) (stats : Stats) (q : Path)
    (hq : ∀ j, j ≤ relAnc.length → q ≠ root ++ relAnc.take j) :
    propagateUp root signs relAnc stats q = stats q :=
  propagateUp_not_touched_aux root signs relAnc.length relAnc stats q (by omega) hq

theorem rankO_propagateUp_touched_aux (root : Path) (signs : String) :
    ∀ (n : Nat) (relAnc : List String) (stats : Stats) (j : Nat),
      relAnc.length ≤ n → j ≤ relAnc.length →
      rankO (propagateUp root signs relAnc stats (root ++ relAnc.take j)) =
        max (rankO (stats (root ++ relAnc.take j))) (priority signs) := by
  intro n
  induction n with
  | zero =>
    intro relAnc stats j hlen hj
    have hnil : relAnc = [] := List.eq_nil_of_length_eq_zero (by omega)
    subst hnil
    have hj0 : j = 0 := by simpa using hj
    subst hj0
    rw [propagateUp, rankO_storeMerge]
    simp
  | succ n ih =>
    intro relAnc stats j hlen hj
    match relAnc with
    | [] =>
      have hj0 : j = 0 := by simpa using hj
      subst hj0
      rw [propagateUp, rankO_storeMerge]
      simp
    | a :: as =>
      by_cases hfull : j = as.length + 1
      · subst hfull
        have htake : (a :: as).take (as.length + 1) = a :: as := by
          apply List.take_of_length_le
          simp
        rw [htake]
        rw [propagateUp]
        rw [propagateUp_not_touched]
        · rw [rankO_storeMerge, if_pos rfl]
        · intro j' hj' hcontra
          simp only [List.length_dropLast, List.length_cons, Nat.add_sub_cancel] at hj'
          have h2 : a :: as = (a :: as).dropLast.take j' := List.append_cancel_left hcontra
          have h3 : (a :: as).length = ((a :: as).dropLast.take j').length := by rw [← h2]
          simp [List.length_take, List.length_dropLast] at h3
          omega
      · have hj2 : j ≤ as.length := by simp at hj; omega
        have htake : (a :: as).take j = (a :: as).dropLast.take j :=
          (take_dropLast_eq (a :: as) j (by simp; omega)).symm
        rw [propagateUp]
        rw [htake]
        rw [ih]
        · congr 2
          apply storeMerge_ne
          intro hcontra
          have h2 : (a :: as).dropLast.take j = a :: as := List.append_cancel_left hcontra
          have h3 : ((a :: as).dropLast.take j).length = (a :: as).length := by rw [h2]
          simp [List.length_take, List.length_dropLast] at h3
          omega
        · simp at hlen ⊢
          omega
        · simp
          omega

/-- Rank at a touched path after the propagation loop: the old rank joined
with the incoming record's rank. -/
theorem rankO_propagateUp_touched (root : Path) (signs : String)
    (relAnc : List String) (stats : Stats) (j : Nat) (hj : j ≤ relAnc.length) :
    rankO (propagateUp root signs relAnc stats (root ++ relAnc.take j)) =
      max (rankO (stats (root ++ relAnc.take j))) (priority signs) :=
  rankO_propagateUp_touched_aux root signs relAnc.length relAnc stats j (by omega) hj

/-! ### Per-path effect of processing one record -/

/-- Rank at `root ++ rel.take j` after processing the record `(signs, rel)`:
old rank joined with the record's rank.  The touched paths are exactly the
record's own path (`j = rel.length`) and all its ancestors up to the root. -/
theorem rankO_processRecord_touched (root : Path) (stats : Stats)
    (signs : String) (rel : List String) (j : Nat) (hj : j ≤ rel.length) :
    rankO (processRecord root stats (signs, rel) (root ++ rel.take j)) =
      max (rankO (stats (root ++ rel.take j))) (priority signs) := by
  match rel with
  | [] =>
    have hj0 : j = 0 := by simpa using hj
    subst hj0
    simp only [processRecord]
    rw [rankO_storeMerge]
    simp
  | a :: as =>
    simp only [processRecord]
    by_cases hfull : j = as.length + 1
    · subst hfull
      have htake : (a :: as).take (as.length + 1) = a :: as := by
        apply List.take_of_length_le
        simp
      rw [htake]
      rw [propagateUp_not_touched]
      · rw [rankO_storeMerge, if_pos rfl]
      · intro j' hj' hcontra
        simp only [List.length_dropLast, List.length_cons, Nat.add_sub_cancel] at hj'
        have h2 : a :: as = (a :: as).dropLast.take j' := List.append_cancel_left hcontra
        have h3 : (a :: as).length = ((a :: as).dropLast.take j').length := by rw [← h2]
        simp [List.length_take, List.length_dropLast] at h3
        omega
    · have hj2 : j ≤ as.length := by simp at hj; omega
      have htake : (a :: as).take j = (a :: as).dropLast.take j :=
        (take_dropLast_eq (a :: as) j (by simp; omega)).symm
      rw [htake]
      rw [rankO_propagateUp_touched]
      · congr 2
        apply storeMerge_ne
        intro hcontra
        have h2 : (a :: as).dropLast.take j = a :: as := List.append_cancel_left hcontra
        have h3 : ((a :: as).dropLast.take j).length = (a :: as).length := by rw [h2]
        simp [List.length_take, List.length_dropLast] at h3
        omega
      · simp
        omega

/-- A path that is neither the record's own path nor one of its ancestors is
untouched by processing the record. -/
theorem processRecord_not_touched (root : Path) (stats : Stats)
    (signs : String) (rel : List String) (q : Path)
    (hq : ∀ j, j ≤ rel.length → q ≠ root ++ rel.take j) :
    processRecord root stats (signs, rel) q = stats q := by
  match rel with
  | [] =>
    simp only [processRecord]
    exact storeMerge_ne _ _ _ _ (by simpa using hq 0 (by omega))
  | a :: as =>
    simp only [processRecord]
    rw [propagateUp_not_touched]
    · exact storeMerge_ne _ _ _ _ (by
        have := hq (as.length + 1) (by simp)
        simpa [List.take_of_length_le] using this)
    · intro j hj
      simp only [List.length_dropLast, List.length_cons, Nat.add_sub_cancel] at hj
      have := hq j (by simp; omega)
      rw [take_dropLast_eq]
      · exact this
      · simp
        omega

/-- Processing a record never lowers the rank stored at any path. -/
theorem rankO_processRecord_mono (root : Path) (stats : Stats)
    (rec : String × List String) (q : Path) :
    rankO (stats q) ≤ rankO (processRecord root stats rec q) := by
  obtain ⟨signs, rel⟩ := rec
  by_cases h : ∃ j, j ≤ rel.length ∧ q = root ++ rel.take j
  · obtain ⟨j, hj, rfl⟩ := h
    rw [rankO_processRecord_touched root stats signs rel j hj]
    exact le_max_left _ _
  · push_neg at h
    rw [processRecord_not_touched root stats signs rel q h]

theorem goodStats_empty (root : Path) : GoodStats root emptyStats := by
  intro rel _
  simp [emptyStats, rankO]

theorem take_ne_nil_of_pos {l : List String} {j : Nat} (hj : 1 ≤ j)
    (hlen : j ≤ l.length) : l.take j ≠ [] := by
  intro h
  have h1 : (l.take j).length = 0 := by rw [h]; rfl
  have h2 : min j l.length = 0 := by simpa [List.length_take] using h1
  omega

/-- Processing one record preserves the ancestor-monotonicity invariant. -/
theorem goodStats_processRecord (root : Path) (stats : Stats)
    (rec : String × List String) (hGood : GoodStats root stats) :
    GoodStats root (processRecord root stats rec) := by
  obtain ⟨signs, rel⟩ := rec
  intro rel' hne
  by_cases h : ∃ j, j ≤ rel.length ∧ root ++ rel' = root ++ rel.take j
  · obtain ⟨j, hj, heq⟩ := h
    have hrel' : rel' = rel.take j := List.append_cancel_left heq
    have hj1 : 1 ≤ j := by
      rcases Nat.eq_zero_or_pos j with h0 | h1
      · subst h0
        simp [List.take] at hrel'
        exact absurd hrel' hne
      · exact h1
    have hpar : rel'.dropLast = rel.take (j - 1) := by
      rw [hrel']
      exact dropLast_take_eq rel j hj
    rw [hpar, hrel']
    rw [rankO_processRecord_touched root stats signs rel j hj]
    rw [rankO_processRecord_touched root stats signs rel (j - 1) (by omega)]
    apply max_le_max _ (le_refl _)
    have hchild := hGood (rel.take j) (take_ne_nil_of_pos hj1 hj)
    rw [dropLast_take_eq rel j hj] at hchild
    exact hchild
  · push_neg at h
    rw [processRecord_not_touched root stats signs rel _ h]
    calc rankO (stats (root ++ rel')) ≤ rankO (stats (root ++ rel'.dropLast)) :=
          hGood rel' hne
      _ ≤ rankO (processRecord root stats (signs, rel) (root ++ rel'.dropLast)) :=
          rankO_processRecord_mono root stats _ _

/-- The record loop preserves the invariant. -/
theorem goodStats_foldl (root : Path) :
    ∀ (recs : List (String × List String)) (stats : Stats),
      GoodStats root stats →
      GoodStats root (recs.foldl (processRecord root) stats) := by
  intro recs
  induction recs with
  | nil => intro stats h; exact h
  | cons r rs ih =>
    intro stats h
    exact ih _ (goodStats_processRecord root stats r h)

/-- The record loop never lowers the rank stored at any path. -/
theorem rankO_foldl_mono (root : Path) :
    ∀ (recs : List (String × List String)) (stats : Stats) (q : Path),
      rankO (stats q) ≤ rankO ((recs.foldl (processRecord root) stats) q) := by
  intro recs
  induction recs with
  | nil => intro stats q; simp
  | cons r rs ih =>
    intro stats q
    calc rankO (stats q) ≤ rankO (processRecord root stats r q) :=
          rankO_processRecord_mono root stats r q
      _ ≤ _ := ih _ q

/-- After the loop has processed a record, the record's own path holds a code
of at least the record's rank. -/
theorem priority_le_foldl_of_mem (root : Path) :
    ∀ (recs : List (String × List String)) (stats : Stats)
      (signs : String) (rel : List String),
      (signs, rel) ∈ recs →
      priority signs ≤ rankO ((recs.foldl (processRecord root) stats) (root ++ rel)) := by
  intro recs
  induction recs with
  | nil => intro stats signs rel h; simp at h
  | cons r rs ih =>
    intro stats signs rel hmem
    rcases List.mem_cons.mp hmem with heq | htail
    · subst heq
      simp only [List.foldl_cons]
      calc priority signs
          ≤ rankO (processRecord root stats (signs, rel) (root ++ rel)) := by
            have := rankO_processRecord_touched root stats signs rel rel.length (le_refl _)
            rw [List.take_length] at this
            rw [this]
            exact le_max_right _ _
        _ ≤ _ := rankO_foldl_mono root rs _ _
    · exact ih _ signs rel htail

/-- Rank chain: under the invariant, the rank at a path is at most the rank at
any of its ancestors (every shorter prefix of the relative path). -/
theorem goodStats_chain (root : Path) (stats : Stats) (hGood : GoodStats root stats) :
    ∀ (d : Nat) (rel : List String) (j : Nat),
      j ≤ rel.length → rel.length - j ≤ d →
      rankO (stats (root ++ rel)) ≤ rankO (stats (root ++ rel.take j)) := by
  intro d
  induction d with
  | zero =>
    intro rel j hj hd
    have : j = rel.length := by omega
    subst this
    rw [List.take_length]
  | succ d ih =>
    intro rel j hj hd
    by_cases hfull : j = rel.length
    · subst hfull
      rw [List.take_length]
    · have hj1 : j + 1 ≤ rel.length := by omega
      calc rankO (stats (root ++ rel))
          ≤ rankO (stats (root ++ rel.take (j + 1))) := ih rel (j + 1) hj1 (by omega)
        _ ≤ rankO (stats (root ++ rel.take j)) := by
            have := hGood (rel.take (j + 1)) (take_ne_nil_of_pos (by omega) hj1)
            rw [dropLast_take_eq rel (j + 1) hj1] at this
            simpa using this

theorem exists_some_of_rankO_pos {o : Option String} (h : 1 ≤ rankO o) :
    ∃ s, o = some s := by
  match o with
  | none => simp [rankO] at h
  | some s => exact ⟨s, rfl⟩

/-- C1: when two status records (from one query) map to the same absolute
path, directly or via ancestor propagation, both store sites of
`gitStatusesForDir` apply the same merge rule `mergeCode`: the stored code is
the record whose rank under `priority` (ignored = 1, untracked = 2, any other
code = 3) is numerically greater, and merging a record into an identical
stored record leaves the stored code unchanged. -/
theorem mergeCode_rank_monotone_idempotent (prev signs : String) :
    (priority prev < priority signs → mergeCode (some prev) signs = signs) ∧
    (priority signs < priority prev → mergeCode (some prev) signs = prev) ∧
    mergeCode (some signs) signs = signs := by
  refine ⟨?_, ?_, ?_⟩
  · intro h
    simp [mergeCode, h]
  · intro h
    have h2 : ¬ priority prev < priority signs := by omega
    simp [mergeCode, h2]
  · simp [mergeCode]

/-- Witness for C1 at concrete codes: an untracked record beats an ignored
one, an ignored record loses to a modified one, and merging `"??"` into an
already-stored `"??"` is the identity. -/
theorem mergeCode_rank_monotone_idempotent_witness :
    (priority "!!" < priority "??" → mergeCode (some "!!") "??" = "??") ∧
    (priority "??" < priority "!!" → mergeCode (some "!!") "??" = "!!") ∧
    mergeCode (some "??") "??" = "??" :=
  mergeCode_rank_monotone_idempotent "!!" "??"

/-- C2: after `gitStatusesForDir` has processed the whole query output, every
record's path holds a stored code, and every ancestor directory from the
path's parent up to and including the repository root holds a stored code of
rank at least the rank of the code stored at the path itself.  Ancestors are
the paths `root ++ rel.take j` for `j < rel.length`. -/
theorem gitStatuses_ancestor_propagation (root : Path)
    (recs : List (String × List String)) (signs : String) (rel : List String)
    (hmem : (signs, rel) ∈ recs) (hne : rel ≠ []) :
    ∃ sp, gitStatuses root recs (root ++ rel) = some sp ∧
      ∀ j, j < rel.length →
        ∃ sa, gitStatuses root recs (root ++ rel.take j) = some sa ∧
          priority sp ≤ priority sa := by
  have hGood : GoodStats root (gitStatuses root recs) :=
    goodStats_foldl root recs emptyStats (goodStats_empty root)
  have hP : priority signs ≤ rankO (gitStatuses root recs (root ++ rel)) :=
    priority_le_foldl_of_mem root recs emptyStats signs rel hmem
  have hP1 : 1 ≤ rankO (gitStatuses root recs (root ++ rel)) :=
    le_trans (priority_pos signs) hP
  obtain ⟨sp, hsp⟩ := exists_some_of_rankO_pos hP1
  refine ⟨sp, hsp, ?_⟩
  intro j hj
  have hchain := goodStats_chain root (gitStatuses root recs) hGood
    (rel.length - j) rel j (by omega) (by omega)
  have hA1 : 1 ≤ rankO (gitStatuses root recs (root ++ rel.take j)) := by
    rw [hsp] at hchain
    calc 1 ≤ priority sp := priority_pos sp
      _ = rankO (some sp) := (rankO_some sp).symm
      _ ≤ _ := hchain
  obtain ⟨sa, hsa⟩ := exists_some_of_rankO_pos hA1
  refine ⟨sa, hsa, ?_⟩
  rw [hsp, hsa] at hchain
  simpa [rankO_some] using hchain

/-- Witness for C2: one modified record two levels below the root; both the
intermediate directory and the root receive a code of rank at least the
record's. -/
theorem gitStatuses_ancestor_propagation_witness :
    ∃ sp, gitStatuses ["r"] [(" M", ["a", "b"])] (["r"] ++ ["a", "b"]) = some sp ∧
      ∀ j, j < (["a", "b"] : List String).length →
        ∃ sa, gitStatuses ["r"] [(" M", ["a", "b"])] (["r"] ++ (["a", "b"] : List String).take j) = some sa ∧
          priority sp ≤ priority sa :=
  gitStatuses_ancestor_propagation ["r"] [(" M", ["a", "b"])] " M" ["a", "b"]
    (by simp) (by simp)

/-! ### The directories-first pass is a stable partition -/

theorem cmpDirsFirst_le_zero_of_dir {x y : Entry} (hx : isDir x = true) :
    cmpDirsFirst x y ≤ 0 := by
  unfold cmpDirsFirst
  rw [hx]
  by_cases h : (true : Bool) = isDir y
  · simp [h]
  · simp [h]

theorem insertCmp_dirsFirst_dir (x : Entry) (l : List Entry) (hx : isDir x = true) :
    insertCmp cmpDirsFirst x l = x :: l := by
  match l with
  | [] => rfl
  | y :: ys =>
    unfold insertCmp
    rw [if_pos (cmpDirsFirst_le_zero_of_dir hx)]

theorem insertCmp_dirsFirst_nondir (x : Entry) (hx : isDir x = false) :
    ∀ (D N : List Entry), (∀ d ∈ D, isDir d = true) → (∀ y ∈ N, isDir y = false) →
      insertCmp cmpDirsFirst x (D ++ N) = D ++ x :: N := by
  intro D
  induction D with
  | nil =>
    intro N _ hN
    match N with
    | [] => rfl
    | y :: ys =>
      simp only [List.nil_append]
      unfold insertCmp
      rw [if_pos]
      have hy : isDir y = false := hN y (by simp)
      unfold cmpDirsFirst
      rw [if_pos (by rw [hx, hy])]
  | cons d ds ih =>
    intro N hD hN
    have hd : isDir d = true := hD d (by simp)
    simp only [List.cons_append]
    unfold insertCmp
    rw [if_neg]
    · congr 1
      exact ih N (fun d' hd' => hD d' (by simp [hd'])) hN
    · unfold cmpDirsFirst
      rw [if_neg (by rw [hx, hd]; simp), if_neg (by rw [hx]; simp)]
      omega

/-- The final stable pass with the directories-first comparator is exactly the
stable partition: directory-like entries first, both sides in input order. -/
theorem sortStableFunc_dirsFirst_partition (ents : List Entry) :
    sortStableFunc cmpDirsFirst ents =
      ents.filter (fun e => isDir e) ++ ents.filter (fun e => ! isDir e) := by
  induction ents with
  | nil => rfl
  | cons x xs ih =>
    unfold sortStableFunc
    rw [ih]
    by_cases hx : isDir x = true
    · rw [insertCmp_dirsFirst_dir x _ hx]
      simp [List.filter_cons, hx]
    · have hx' : isDir x = false := by simpa using hx
      rw [insertCmp_dirsFirst_nondir x hx' _ _ ?_ ?_]
      · simp [List.filter_cons, hx']
      · intro d hd
        simpa using (List.mem_filter.mp hd).2
      · intro y hy
        simpa using (List.mem_filter.mp hy).2

/-- C8: with `dirsFirst` enabled, `sortEntries` ends in a stable partition of
the key-sorted list: every directory-like entry (directories, or symlinks
resolving to directories) precedes every other entry, and two entries on the
same side of the partition keep the relative order produced by the preceding
sort passes. -/
theorem sortEntries_dirsFirst_stable_partition (opt : Options) (ents : List Entry)
    (h : opt.dirsFirst = true) :
    sortEntries opt ents =
      (sortKeyPasses opt ents).filter (fun e => isDir e) ++
        (sortKeyPasses opt ents).filter (fun e => ! isDir e) := by
  unfold sortEntries
  rw [if_pos h]
  exact sortStableFunc_dirsFirst_partition (sortKeyPasses opt ents)

theorem rowGo_length_le_aux (names : List String) (rows n cols r : Nat) :
    ∀ (d c : Nat), cols - c ≤ d → (rowGo names rows n cols r c).length ≤ cols - c := by
  intro d
  induction d with
  | zero =>
    intro c hd
    rw [rowGo, dif_neg (by omega)]
    simp
  | succ d ih =>
    intro c hd
    rw [rowGo]
    by_cases hc : c < cols
    · rw [dif_pos hc]
      by_cases hn : c * rows + r < n
      · rw [if_pos hn]
        have := ih (c + 1) (by omega)
        simp only [List.length_cons]
        omega
      · rw [if_neg hn]
        simp
    · rw [dif_neg hc]
      simp

/-- Row `r` never holds more populated cells than the column count. -/
theorem rowGo_length_le (names : List String) (rows n cols r c : Nat) :
    (rowGo names rows n cols r c).length ≤ cols - c :=
  rowGo_length_le_aux names rows n cols r (cols - c) c (by omega)

theorem rowGo_get_aux (names : List String) (rows n cols r : Nat) :
    ∀ (d c : Nat), cols - c ≤ d → ∀ k,
      (rowGo names rows n cols r c).get? k =
        if c + k < cols ∧ (c + k) * rows + r < n
        then some (names.getD ((c + k) * rows + r) "") else none := by
  intro d
  induction d with
  | zero =>
    intro c hd k
    rw [rowGo, dif_neg (by omega), if_neg (by omega)]
    simp
  | succ d ih =>
    intro c hd k
    rw [rowGo]
    by_cases hc : c < cols
    · rw [dif_pos hc]
      by_cases hn : c * rows + r < n
      · rw [if_pos hn]
        match k with
        | 0 =>
          rw [if_pos (by simpa using ⟨hc, hn⟩)]
          simp
        | k + 1 =>
          have hrec := ih (c + 1) (by omega) k
          simp only [List.get?_cons_succ]
          rw [hrec]
          have harith : c + 1 + k = c + (k + 1) := by omega
          rw [harith]
      · rw [if_neg hn]
        rw [if_neg]
        · simp
        · intro hcon
          obtain ⟨h1, h2⟩ := hcon
          have : c * rows ≤ (c + k) * rows := Nat.mul_le_mul_right rows (by omega)
          omega
    · rw [dif_neg hc, if_neg (by omega)]
      simp

/-- Contents of the inner loop's output, position by position: cell `k` of the
loop started at `c` holds the entry at index `(c+k)*rows + r`, present exactly
when that column is within bounds and the index is below the entry count. -/
theorem rowGo_get (names : List String) (rows n cols r c k : Nat) :
    (rowGo names rows n cols r c).get? k =
      if c + k < cols ∧ (c + k) * rows + r < n
      then some (names.getD ((c + k) * rows + r) "") else none :=
  rowGo_get_aux names rows n cols r (cols - c) c (by omega) k

/-- Witness for C8 on a concrete list: a file, a directory and a symlink
resolving to a directory; the two directory-like entries come first, both
sides in key order. -/
theorem sortEntries_dirsFirst_stable_partition_witness :
    ({ optBase with dirsFirst := true } : Options).dirsFirst = true ∧
      sortEntries { optBase with dirsFirst := true }
          [fileEntry "b", dirEntry "a", fileEntry "c"] =
        (sortKeyPasses { optBase with dirsFirst := true }
            [fileEntry "b", dirEntry "a", fileEntry "c"]).filter
            (fun e => isDir e) ++
          (sortKeyPasses { optBase with dirsFirst := true }
              [fileEntry "b", dirEntry "a", fileEntry "c"]).filter
            (fun e => ! isDir e) :=
  ⟨rfl, sortEntries_dirsFirst_stable_partition _ _ rfl⟩

/-- C6: for a non-empty batch and positive terminal width, the column count
computed by `printShort` lies between 1 and the entry count, and no printed
row holds more populated cells than the column count. -/
theorem printShort_layout_feasible (ents : List Entry) (w : Nat)
    (hne : ents ≠ []) (hw : 0 < w) :
    1 ≤ shortCols ents w ∧ shortCols ents w ≤ ents.length ∧
    ∀ row ∈ printShortRows ents w, row.length ≤ shortCols ents w := by
  have hn : 1 ≤ ents.length := List.length_pos.mpr hne
  have hcols1 : 1 ≤ shortCols ents w := by
    unfold shortCols
    have h1 : 1 ≤ max (w / (shortColTabs ents * tabWidth)) 1 := le_max_right _ _
    omega
  have hcolsn : shortCols ents w ≤ ents.length := min_le_right _ _
  refine ⟨hcols1, hcolsn, ?_⟩
  intro row hrow
  unfold printShortRows at hrow
  by_cases h1 : shortCols ents w = 1
  · rw [if_pos h1] at hrow
    obtain ⟨s, _, rfl⟩ := List.mem_map.mp hrow
    simp [h1]
  · rw [if_neg h1] at hrow
    obtain ⟨r, _, rfl⟩ := List.mem_map.mp hrow
    have := rowGo_length_le (shortNames ents) (shortRows ents w) ents.length
      (shortCols ents w) r 0
    unfold rowCells
    omega

/-- Witness for C6: seven one-character names on an 80-column terminal. -/
theorem printShort_layout_feasible_witness :
    ents7 ≠ [] ∧ 0 < 80 ∧
      (1 ≤ shortCols ents7 80 ∧ shortCols ents7 80 ≤ ents7.length ∧
        ∀ row ∈ printShortRows ents7 80, row.length ≤ shortCols ents7 80) :=
  ⟨by simp [ents7], by omega, printShort_layout_feasible ents7 80 (by simp [ents7]) (by omega)⟩

/-- C7: when more than one column is laid out, entry `i` (input order) sits at
row `i mod rows`, column `i div rows`, with `rows = ceil(count / cols)` —
the grid is filled top-to-bottom within a column before moving right. -/
theorem printShort_column_major (ents : List Entry) (w : Nat)
    (hcols2 : 2 ≤ shortCols ents w) (i : Nat) (hi : i < ents.length) :
    ∃ rowL, (printShortRows ents w).get? (i % shortRows ents w) = some rowL ∧
      rowL.get? (i / shortRows ents w) = some ((shortNames ents).getD i "") := by
  have hn : 1 ≤ ents.length := by omega
  have hcolpos : 0 < shortCols ents w := by omega
  have hrows1 : 1 ≤ shortRows ents w := by
    unfold shortRows
    rw [Nat.one_le_div_iff hcolpos]
    omega
  have hcover : ents.length ≤ shortCols ents w * shortRows ents w := by
    have hdm := Nat.div_add_mod (ents.length + shortCols ents w - 1) (shortCols ents w)
    have hmlt : (ents.length + shortCols ents w - 1) % shortCols ents w <
        shortCols ents w := Nat.mod_lt _ hcolpos
    unfold shortRows
    generalize hP : shortCols ents w *
      ((ents.length + shortCols ents w - 1) / shortCols ents w) = P at hdm ⊢
    omega
  have hidx : i / shortRows ents w * shortRows ents w + i % shortRows ents w = i := by
    rw [Nat.mul_comm]
    exact Nat.div_add_mod i (shortRows ents w)
  have hcol : i / shortRows ents w < shortCols ents w := by
    rw [Nat.div_lt_iff_lt_mul (by omega)]
    calc i < ents.length := hi
      _ ≤ shortCols ents w * shortRows ents w := hcover
  have hrowlt : i % shortRows ents w < shortRows ents w := Nat.mod_lt _ (by omega)
  refine ⟨rowCells ents w (i % shortRows ents w), ?_, ?_⟩
  · unfold printShortRows
    rw [if_neg (by omega)]
    rw [List.get?_map, List.get?_range hrowlt]
    rfl
  · unfold rowCells
    rw [rowGo_get]
    have hzc : (0 : Nat) + i / shortRows ents w = i / shortRows ents w :=
      Nat.zero_add _
    have hcond1 : 0 + i / shortRows ents w < shortCols ents w := by
      rw [hzc]; exact hcol
    have hcond2 : (0 + i / shortRows ents w) * shortRows ents w +
        i % shortRows ents w < ents.length := by
      rw [hzc, hidx]; exact hi
    rw [if_pos ⟨hcond1, hcond2⟩, hzc, hidx]

/-- Witness for C7: seven one-character names on a 40-column terminal give 5
columns and 2 rows, and entry 1 lands at row 1, column 0 — not row 0,
column 1. -/
theorem printShort_column_major_witness :
    2 ≤ shortCols ents7 40 ∧ 1 < ents7.length ∧
      (∃ rowL, (printShortRows ents7 40).get? (1 % shortRows ents7 40) = some rowL ∧
        rowL.get? (1 / shortRows ents7 40) = some ((shortNames ents7).getD 1 "")) :=
  ⟨by decide, by decide, printShort_column_major ents7 40 (by decide) 1 (by decide)⟩

theorem attachStep_snd (statusOf : Path → Option Stats) (e : Entry) :
    (attachStep statusOf e).2 = (statusOf (dirOfEntry e)).isSome := by
  cases hs : statusOf (dirOfEntry e) with
  | none => simp [attachStep, hs]
  | some stats =>
    cases hp : stats e.path with
    | none => simp [attachStep, hs, hp]
    | some signs => simp [attachStep, hs, hp]

theorem attachStep_fst_of_miss (statusOf : Path → Option Stats) (e : Entry)
    (hmiss : lookupStatus statusOf e = none) :
    (attachStep statusOf e).1 = e := by
  cases hs : statusOf (dirOfEntry e) with
  | none => simp [attachStep, hs]
  | some stats =>
    have hp : stats e.path = none := by
      unfold lookupStatus lookupIn at hmiss
      rw [hs] at hmiss
      simpa using hmiss
    simp [attachStep, hs, hp]

theorem any_attachStep (statusOf : Path → Option Stats) (ents : List Entry) :
    ((ents.map (attachStep statusOf)).any fun p => p.2) =
      ents.any fun x => (statusOf (dirOfEntry x)).isSome := by
  induction ents with
  | nil => rfl
  | cons x xs ih => simp [List.any_cons, attachStep_snd, ih]

/-- C4, counterexample to the claim as stated: in a clean repository the
batch `[entInClean]` contains no entry with any status record, yet the entry
receives the `"--"` placeholder, because its directory resolved to a
repository whose query succeeded (with an empty map). -/
theorem attachGitToFiles_placeholder_counterexample :
    (∀ e ∈ [entInClean], lookupStatus statusOfClean e = none) ∧
      (attachGitToFiles statusOfClean [entInClean]).map (fun e => e.gitStatus) =
        ["--"] := by
  constructor
  · decide
  · decide

/-- C4 as amended: an entry whose full path has no status record receives the
`"--"` placeholder exactly when the batch's status source succeeded — in
files mode, when at least one entry's directory resolved to a repository
with a readable (possibly empty) status map; in directory mode, when the
directory's own query succeeded.  Otherwise its status stays empty. -/
theorem attachGit_placeholder_batch (statusOf : Path → Option Stats)
    (dir : Path) (ents : List Entry) (i : Nat) (e : Entry)
    (he : ents[i]? = some e) (hmiss : lookupStatus statusOf e = none)
    (hmissd : lookupIn (statusOf dir) e.path = none)
    (hinit : e.gitStatus = "") :
    (∃ e1, (attachGitToFiles statusOf ents)[i]? = some e1 ∧
      e1.gitStatus =
        (if ents.any (fun x => (statusOf (dirOfEntry x)).isSome) then "--" else "")) ∧
    (∃ e2, (attachGitToDir statusOf dir ents)[i]? = some e2 ∧
      e2.gitStatus = (if (statusOf dir).isSome then "--" else "")) := by
  constructor
  · simp only [attachGitToFiles]
    rw [any_attachStep]
    by_cases hshow : (ents.any fun x => (statusOf (dirOfEntry x)).isSome) = true
    · rw [if_pos hshow, if_pos hshow]
      refine ⟨{ e with gitStatus := "--" }, ?_, rfl⟩
      rw [List.getElem?_map, List.getElem?_map, List.getElem?_map, he]
      simp only [Option.map_some']
      rw [attachStep_fst_of_miss statusOf e hmiss]
      rw [if_pos hinit]
    · rw [if_neg hshow, if_neg hshow]
      refine ⟨e, ?_, hinit⟩
      rw [List.getElem?_map, List.getElem?_map, he]
      simp only [Option.map_some']
      rw [attachStep_fst_of_miss statusOf e hmiss]
  · cases hs : statusOf dir with
    | none =>
      refine ⟨e, ?_, ?_⟩
      · simp [attachGitToDir, hs, he]
      · rw [hinit]
        simp
    | some stats =>
      have hp : stats e.path = none := by
        unfold lookupIn at hmissd
        rw [hs] at hmissd
        simpa using hmissd
      refine ⟨{ e with gitStatus := "--" }, ?_, by simp⟩
      simp only [attachGitToDir, hs]
      rw [List.getElem?_map, he]
      simp only [Option.map_some']
      rw [hp]

theorem parseRecord_signs_len (splitPath : String → List String)
    (rec : List Char) (signs : String) (rel : List String)
    (h : parseRecord splitPath rec = some (signs, rel)) : signs.length = 2 := by
  unfold parseRecord at h
  by_cases hg : rec.length < 4 ∨ rec.get? 2 ≠ some ' '
  · rw [if_pos hg] at h
    exact absurd h (by simp)
  · rw [if_neg hg] at h
    push_neg at hg
    have hs : signs = String.mk (rec.take 2) := by
      have := Option.some.inj h
      exact (congrArg Prod.fst this).symm
    rw [hs]
    show (rec.take 2).length = 2
    rw [List.length_take]
    omega

theorem parseRecords_signs_len (splitPath : String → List String)
    (raws : List (List Char)) :
    ∀ r ∈ parseRecords splitPath raws, (r.1 : String).length = 2 := by
  intro r hr
  obtain ⟨s1, l1⟩ := r
  unfold parseRecords at hr
  obtain ⟨raw, _, hparse⟩ := List.mem_filterMap.mp hr
  exact parseRecord_signs_len splitPath raw s1 l1 hparse

theorem statsLen2_storeMerge (stats : Stats) (p : Path) (signs : String)
    (hst : StatsLen2 stats) (hs : signs.length = 2) :
    StatsLen2 (storeMerge stats p signs) := by
  intro q s hq
  unfold storeMerge at hq
  by_cases hqp : q = p
  · rw [if_pos hqp] at hq
    have hval := Option.some.inj hq
    rcases mergeCode_cases (stats p) signs with hc | hc
    · rw [← hval, hc]
      exact hs
    · rw [← hval]
      exact hst p _ hc
  · rw [if_neg hqp] at hq
    exact hst q s hq

theorem statsLen2_propagateUp (root : Path) (signs : String) (hs : signs.length = 2) :
    ∀ (n : Nat) (relAnc : List String) (stats : Stats),
      relAnc.length ≤ n → StatsLen2 stats →
      StatsLen2 (propagateUp root signs relAnc stats) := by
  intro n
  induction n with
  | zero =>
    intro relAnc stats hlen hst
    have hnil : relAnc = [] := List.eq_nil_of_length_eq_zero (by omega)
    subst hnil
    rw [propagateUp]
    exact statsLen2_storeMerge _ _ _ hst hs
  | succ n ih =>
    intro relAnc stats hlen hst
    match relAnc with
    | [] =>
      rw [propagateUp]
      exact statsLen2_storeMerge _ _ _ hst hs
    | a :: as =>
      rw [propagateUp]
      apply ih
      · simp only [List.length_dropLast, List.length_cons, Nat.add_sub_cancel]
        simp at hlen
        omega
      · exact statsLen2_storeMerge _ _ _ hst hs

theorem statsLen2_processRecord (root : Path) (stats : Stats)
    (rec : String × List String) (hst : StatsLen2 stats)
    (hs : rec.1.length = 2) : StatsLen2 (processRecord root stats rec) := by
  obtain ⟨signs, rel⟩ := rec
  match rel with
  | [] =>
    simp only [processRecord]
    exact statsLen2_storeMerge _ _ _ hst hs
  | a :: as =>
    simp only [processRecord]
    exact statsLen2_propagateUp root signs hs _ _ _ (le_refl _)
      (statsLen2_storeMerge _ _ _ hst hs)

theorem statsLen2_foldl (root : Path) :
    ∀ (recs : List (String × List String)) (stats : Stats),
      StatsLen2 stats → (∀ r ∈ recs, (r.1 : String).length = 2) →
      StatsLen2 (recs.foldl (processRecord root) stats) := by
  intro recs
  induction recs with
  | nil => intro stats h _; exact h
  | cons r rs ih =>
    intro stats h hall
    simp only [List.foldl_cons]
    exact ih _ (statsLen2_processRecord root stats r h (hall r (by simp)))
      (fun x hx => hall x (by simp [hx]))

/-- Every value stored by `gitStatusesForDir` from parsed records is a
two-character code. -/
theorem gitStatuses_len2 (root : Path) (splitPath : String → List String)
    (raws : List (List Char)) :
    StatsLen2 (gitStatuses root (parseRecords splitPath raws)) := by
  unfold gitStatuses
  apply statsLen2_foldl
  · intro p s h
    exact absurd h (by simp [emptyStats])
  · exact parseRecords_signs_len splitPath raws

theorem replaceSpaceDash_length (s : String) :
    (replaceSpaceDash s).length = s.length := by
  unfold replaceSpaceDash
  show (s.data.map _).length = s.length
  rw [List.length_map]
  rfl

theorem attachStep_fst_status (statusOf : Path → Option Stats) (e : Entry) :
    (attachStep statusOf e).1.gitStatus = e.gitStatus ∨
    ∃ m s, statusOf (dirOfEntry e) = some m ∧ m e.path = some s ∧
      (attachStep statusOf e).1.gitStatus = replaceSpaceDash s := by
  cases hs : statusOf (dirOfEntry e) with
  | none => left; simp [attachStep, hs]
  | some stats =>
    cases hp : stats e.path with
    | none => left; simp [attachStep, hs, hp]
    | some signs =>
      right
      exact ⟨stats, signs, rfl, hp, by simp [attachStep, hs, hp]⟩

theorem uniform_head_width (l : List Entry) (c : Nat)
    (h : ∀ x ∈ l, x.gitStatus.length = c) :
    ∀ x ∈ l, x.gitStatus.length = printLongGitWidth l := by
  intro x hx
  match l with
  | [] => simp at hx
  | e :: t =>
    show x.gitStatus.length = e.gitStatus.length
    rw [h x hx, h e (by simp)]

/-- C10: after status attachment every entry of a batch carries a status of
one common length (`2` when a status column is shown, `0` otherwise), so the
git column width `printLong` reads off the first entry is correct for every
entry of the batch; and `printEntries` dispatches an empty batch to no
printer at all, so `printLong` never reads the head of an empty list. -/
theorem attach_uniform_git_width (statusOf : Path → Option Stats) (dir : Path)
    (ents : List Entry) (opt : Options)
    (hmaps : ∀ d m, statusOf d = some m → StatsLen2 m)
    (hinit : ∀ e ∈ ents, e.gitStatus = "") :
    (∀ e1 ∈ attachGitToFiles statusOf ents,
       e1.gitStatus.length = printLongGitWidth (attachGitToFiles statusOf ents)) ∧
    (∀ e2 ∈ attachGitToDir statusOf dir ents,
       e2.gitStatus.length = printLongGitWidth (attachGitToDir statusOf dir ents)) ∧
    printEntriesDispatch opt [] = .nothing := by
  refine ⟨?_, ?_, rfl⟩
  · by_cases hshow : ((ents.map (attachStep statusOf)).any fun p => p.2) = true
    · apply uniform_head_width _ 2
      intro x hx
      simp only [attachGitToFiles, hshow, if_true] at hx
      obtain ⟨y, hy, rfl⟩ := List.mem_map.mp hx
      obtain ⟨p, hp, rfl⟩ := List.mem_map.mp hy
      obtain ⟨e, he, rfl⟩ := List.mem_map.mp hp
      rcases attachStep_fst_status statusOf e with hcase | ⟨m, s, hm, hms, hcase⟩
      · rw [hcase, hinit e he]
        simp
        rfl
      · have hlen : (attachStep statusOf e).1.gitStatus.length = 2 := by
          rw [hcase, replaceSpaceDash_length]
          exact hmaps _ m hm e.path s hms
        have hne : (attachStep statusOf e).1.gitStatus ≠ "" := by
          intro hcon
          rw [hcon] at hlen
          simp at hlen
        rw [if_neg hne]
        exact hlen
    · apply uniform_head_width _ 0
      intro x hx
      simp only [attachGitToFiles, hshow, if_false] at hx
      have hshow' : ((ents.map (attachStep statusOf)).any fun p => p.2) = false := by
        simpa using hshow
      obtain ⟨p, hp, rfl⟩ := List.mem_map.mp hx
      obtain ⟨e, he, rfl⟩ := List.mem_map.mp hp
      have hfalse : (attachStep statusOf e).2 = false := by
        have := List.any_eq_false.mp hshow' (attachStep statusOf e)
          (List.mem_map.mpr ⟨e, he, rfl⟩)
        simpa using this
      have hnone : statusOf (dirOfEntry e) = none := by
        rw [attachStep_snd] at hfalse
        exact Option.not_isSome_iff_eq_none.mp (by simp [hfalse])
      have : attachStep statusOf e = (e, false) := by
        simp [attachStep, hnone]
      rw [this]
      rw [hinit e he]
      rfl
  · cases hs : statusOf dir with
    | none =>
      apply uniform_head_width _ 0
      intro x hx
      simp only [attachGitToDir, hs] at hx
      rw [hinit x hx]
      rfl
    | some stats =>
      apply uniform_head_width _ 2
      intro x hx
      simp only [attachGitToDir, hs] at hx
      obtain ⟨e, he, rfl⟩ := List.mem_map.mp hx
      cases hp : stats e.path with
      | none => rfl
      | some signs =>
        simp only [hp]
        rw [replaceSpaceDash_length]
        exact hmaps dir stats hs e.path signs hp

/-- Witness for the amended C4: in the batch `[entB, entA]` the untracked
`b.txt` makes the batch show statuses, so the record-less `a.txt` receives
the `"--"` placeholder in both attachment modes. -/
theorem attachGit_placeholder_batch_witness :
    ([entB, entA][1]? = some entA) ∧ lookupStatus statusOfA entA = none ∧
      ((∃ e1, (attachGitToFiles statusOfA [entB, entA])[1]? = some e1 ∧
        e1.gitStatus =
          (if [entB, entA].any (fun x => (statusOfA (dirOfEntry x)).isSome)
            then "--" else "")) ∧
      (∃ e2, (attachGitToDir statusOfA ["r"] [entB, entA])[1]? = some e2 ∧
        e2.gitStatus = (if (statusOfA ["r"]).isSome then "--" else ""))) :=
  ⟨by decide, by decide,
    attachGit_placeholder_batch statusOfA ["r"] [entB, entA] 1 entA
      (by decide) (by decide) (by decide) rfl⟩

/-- Witness for C10 on a real parsed query output: the batch `[entW]` ends up
with uniformly two-character statuses matching `printLong`'s width, and the
empty batch dispatches to no printer. -/
theorem attach_uniform_git_width_witness :
    (∀ e1 ∈ attachGitToFiles statusOfW [entW],
       e1.gitStatus.length = printLongGitWidth (attachGitToFiles statusOfW [entW])) ∧
    (∀ e2 ∈ attachGitToDir statusOfW ["r"] [entW],
       e2.gitStatus.length = printLongGitWidth (attachGitToDir statusOfW ["r"] [entW])) ∧
    printEntriesDispatch optBase [] = .nothing :=
  attach_uniform_git_width statusOfW ["r"] [entW] optBase
    (by
      intro d m hm
      by_cases hd : d = ["r"]
      · have hmw : m = statsW := by
          unfold statusOfW at hm
          rw [if_pos hd] at hm
          exact (Option.some.inj hm).symm
        rw [hmw]
        exact gitStatuses_len2 ["r"] splitPath1 rawsW
      · unfold statusOfW at hm
        rw [if_neg hd] at hm
        exact absurd hm (by simp))
    (by decide)

/-- C5, counterexample to the claim as stated: two tasks resolving the same
root both pass the locked cache check before either has written back, and
both execute the external query — the lock serializes only the check and the
write-back, it does not make the query at-most-once per root. -/
theorem gitQuery_duplicated_counterexample :
    (runSched (startMachine [(["r"], true), (["r"], true)])
        [0, 0, 1, 1, 0, 1]).queries = [(0, ["r"]), (1, ["r"])] := by
  rfl

theorem queryCount_append (s : CacheMachine) (u : Nat) (p : Path) (t : Nat) :
    queryCount { s with queries := s.queries ++ [(u, p)] } t =
      queryCount s t + (if u = t then 1 else 0) := by
  unfold queryCount
  simp only [List.filter_append, List.length_append]
  by_cases hut : u = t
  · simp [hut]
  · simp [hut]

theorem queryInv_congr (s s' : CacheMachine) (h : QueryInv s)
    (hq : s'.queries = s.queries)
    (ht : ∀ t, s'.tasks t = s.tasks t ∨
          ∃ task p', s.tasks t = some task ∧
            s'.tasks t = some { task with pc := p' } ∧
            (PCActive p' → PCActive task.pc)) :
    QueryInv s' := by
  intro t
  have hc : queryCount s' t = queryCount s t := by
    unfold queryCount
    rw [hq]
  rcases ht t with heq | ⟨task, p', hst, hst', himp⟩
  · constructor
    · intro task' htask'
      rw [heq] at htask'
      rw [hc]
      exact (h t).1 task' htask'
    · intro hnone
      rw [heq] at hnone
      rw [hc]
      exact (h t).2 hnone
  · constructor
    · intro task' htask'
      rw [hst'] at htask'
      have htask2 : task' = { task with pc := p' } := (Option.some.inj htask').symm
      subst htask2
      rw [hc]
      constructor
      · intro hact
        exact ((h t).1 task hst).1 (himp hact)
      · exact ((h t).1 task hst).2
    · intro hnone
      rw [hst'] at hnone
      exact absurd hnone (by simp)

theorem queryInv_step (s : CacheMachine) (u : Nat) (h : QueryInv s) :
    QueryInv (stepTask s u) := by
  cases hu : s.tasks u with
  | none =>
    have hstep : stepTask s u = s := by simp [stepTask, hu]
    rw [hstep]
    exact h
  | some task =>
    cases hpc : task.pc with
    | start =>
      by_cases hl : s.lockHeld
      · have hstep : stepTask s u = s := by simp [stepTask, hu, hpc, hl]
        rw [hstep]
        exact h
      · have hstep : stepTask s u =
            { s with lockHeld := true,
                     tasks := setTask s.tasks u { task with pc := .check } } := by
          simp [stepTask, hu, hpc, hl]
        rw [hstep]
        refine queryInv_congr s _ h rfl ?_
        intro t
        by_cases htu : t = u
        · subst htu
          right
          refine ⟨task, .check, hu, by simp [setTask], ?_⟩
          intro _
          rw [hpc]
          left
          rfl
        · left
          simp only [setTask]
          rw [if_neg htu]
    | check =>
      have hstep : stepTask s u =
          { s with lockHeld := false,
                   tasks := setTask s.tasks u
                     { task with
                       pc := if (s.cache task.root).isSome then .done else .query } } := by
        simp [stepTask, hu, hpc]
      rw [hstep]
      refine queryInv_congr s _ h rfl ?_
      intro t
      by_cases htu : t = u
      · subst htu
        right
        refine ⟨task, if (s.cache task.root).isSome then .done else .query, hu,
          by simp [setTask], ?_⟩
        intro hact
        by_cases hc : (s.cache task.root).isSome
        · rw [if_pos hc] at hact
          rcases hact with h1 | h1 | h1 <;> exact absurd h1 (by simp)
        · rw [hpc]
          right
          left
          rfl
      · left
        simp only [setTask]
        rw [if_neg htu]
    | query =>
      have hstep : stepTask s u =
          { s with queries := s.queries ++ [(u, task.root)],
                   tasks := setTask s.tasks u { task with pc := .wlock } } := by
        simp [stepTask, hu, hpc]
      rw [hstep]
      intro t
      have hcnt : queryCount
          { s with queries := s.queries ++ [(u, task.root)],
                   tasks := setTask s.tasks u { task with pc := .wlock } } t =
          queryCount s t + (if u = t then 1 else 0) := by
        unfold queryCount
        simp only [List.filter_append, List.length_append]
        by_cases hut : u = t
        · simp [hut]
        · simp [hut]
      constructor
      · intro task' htask'
        simp only [setTask] at htask'
        by_cases htu : t = u
        · subst htu
          rw [if_pos rfl] at htask'
          have htask2 : task' = { task with pc := .wlock } :=
            (Option.some.inj htask').symm
          subst htask2
          have h0 : queryCount s t = 0 :=
            ((h t).1 task hu).1 (by rw [hpc]; right; right; rfl)
          constructor
          · intro hact
            rcases hact with h1 | h1 | h1 <;> exact absurd h1 (by simp)
          · rw [hcnt, h0]
            split <;> omega
        · rw [if_neg htu] at htask'
          have hut : ¬ u = t := fun hh => htu hh.symm
          constructor
          · intro hact
            rw [hcnt, if_neg hut]
            have := ((h t).1 task' htask').1 hact
            omega
          · rw [hcnt, if_neg hut]
            have := ((h t).1 task' htask').2
            omega
      · intro hnone
        simp only [setTask] at hnone
        by_cases htu : t = u
        · subst htu
          rw [if_pos rfl] at hnone
          exact absurd hnone (by simp)
        · rw [if_neg htu] at hnone
          have hut : ¬ u = t := fun hh => htu hh.symm
          rw [hcnt, if_neg hut]
          have := (h t).2 hnone
          omega
    | wlock =>
      by_cases hl : s.lockHeld
      · have hstep : stepTask s u = s := by simp [stepTask, hu, hpc, hl]
        rw [hstep]
        exact h
      · have hstep : stepTask s u =
            { s with lockHeld := true,
                     tasks := setTask s.tasks u { task with pc := .write } } := by
          simp [stepTask, hu, hpc, hl]
        rw [hstep]
        refine queryInv_congr s _ h rfl ?_
        intro t
        by_cases htu : t = u
        · subst htu
          right
          refine ⟨task, .write, hu, by simp [setTask], ?_⟩
          intro hact
          rcases hact with h1 | h1 | h1 <;> exact absurd h1 (by simp)
        · left
          simp only [setTask]
          rw [if_neg htu]
    | write =>
      have hstep : stepTask s u =
          { s with lockHeld := false,
                   cache := fun r => if r = task.root then some task.ok else s.cache r,
                   tasks := setTask s.tasks u { task with pc := .done } } := by
        simp [stepTask, hu, hpc]
      rw [hstep]
      refine queryInv_congr s _ h rfl ?_
      intro t
      by_cases htu : t = u
      · subst htu
        right
        refine ⟨task, .done, hu, by simp [setTask], ?_⟩
        intro hact
        rcases hact with h1 | h1 | h1 <;> exact absurd h1 (by simp)
      · left
        simp only [setTask]
        rw [if_neg htu]
    | done =>
      have hstep : stepTask s u = s := by simp [stepTask, hu, hpc]
      rw [hstep]
      exact h

theorem queryInv_start (roots : List (Path × Bool)) :
    QueryInv (startMachine roots) := by
  intro t
  constructor
  · intro task _
    constructor
    · intro _
      rfl
    · show (0 : Nat) ≤ 1
      omega
  · intro _
    rfl

theorem queryInv_run (s : CacheMachine) (sched : List Nat) (h : QueryInv s) :
    QueryInv (runSched s sched) := by
  induction sched generalizing s with
  | nil => exact h
  | cons u us ih => exact ih _ (queryInv_step s u h)

theorem cache_isSome_step (s : CacheMachine) (u : Nat) (r : Path)
    (h : (s.cache r).isSome = true) : ((stepTask s u).cache r).isSome = true := by
  cases hu : s.tasks u with
  | none => simpa [stepTask, hu] using h
  | some task =>
    cases hpc : task.pc with
    | start =>
      by_cases hl : s.lockHeld
      · simpa [stepTask, hu, hpc, hl] using h
      · simpa [stepTask, hu, hpc, hl] using h
    | check => simpa [stepTask, hu, hpc] using h
    | query => simpa [stepTask, hu, hpc] using h
    | wlock =>
      by_cases hl : s.lockHeld
      · simpa [stepTask, hu, hpc, hl] using h
      · simpa [stepTask, hu, hpc, hl] using h
    | write =>
      have hstep : stepTask s u =
          { s with lockHeld := false,
                   cache := fun q => if q = task.root then some task.ok else s.cache q,
                   tasks := setTask s.tasks u { task with pc := .done } } := by
        simp [stepTask, hu, hpc]
      rw [hstep]
      show (if r = task.root then some task.ok else s.cache r).isSome = true
      by_cases hr : r = task.root
      · simp [hr]
      · simpa [hr] using h
    | done => simpa [stepTask, hu, hpc] using h

theorem cache_isSome_run (sched : List Nat) :
    ∀ (s : CacheMachine) (r : Path), (s.cache r).isSome = true →
      ((runSched s sched).cache r).isSome = true := by
  induction sched with
  | nil => intro s r h; exact h
  | cons u us ih =>
    intro s r h
    exact ih (stepTask s u) r (cache_isSome_step s u r h)

theorem settled_step (s : CacheMachine) (u t : Nat) (h : Settled s t) :
    Settled (stepTask s u) t ∧ queryCount (stepTask s u) t = queryCount s t := by
  cases hu : s.tasks u with
  | none =>
    have hstep : stepTask s u = s := by simp [stepTask, hu]
    rw [hstep]
    exact ⟨h, rfl⟩
  | some task =>
    cases hpc : task.pc with
    | start =>
      by_cases hl : s.lockHeld
      · have hstep : stepTask s u = s := by simp [stepTask, hu, hpc, hl]
        rw [hstep]
        exact ⟨h, rfl⟩
      · have hstep : stepTask s u =
            { s with lockHeld := true,
                     tasks := setTask s.tasks u { task with pc := .check } } := by
          simp [stepTask, hu, hpc, hl]
        rw [hstep]
        refine ⟨?_, rfl⟩
        intro task' htask'
        simp only [setTask] at htask'
        by_cases htu : t = u
        · subst htu
          rw [if_pos rfl] at htask'
          have hsame : task' = { task with pc := .check } :=
            (Option.some.inj htask').symm
          subst hsame
          refine ⟨by right; left; rfl, ?_⟩
          intro _
          exact (h task hu).2 (Or.inl hpc)
        · rw [if_neg htu] at htask'
          exact h task' htask'
    | check =>
      have hstep : stepTask s u =
          { s with lockHeld := false,
                   tasks := setTask s.tasks u
                     { task with
                       pc := if (s.cache task.root).isSome then .done else .query } } := by
        simp [stepTask, hu, hpc]
      rw [hstep]
      refine ⟨?_, rfl⟩
      intro task' htask'
      simp only [setTask] at htask'
      by_cases htu : t = u
      · subst htu
        rw [if_pos rfl] at htask'
        have hcache : (s.cache task.root).isSome = true :=
          (h task hu).2 (Or.inr hpc)
        have hsame : task' = { task with pc := .done } := by
          rw [← Option.some.inj htask']
          rw [if_pos hcache]
        subst hsame
        refine ⟨by right; right; rfl, ?_⟩
        intro hact
        rcases hact with h1 | h1 <;> exact absurd h1 (by simp)
      · rw [if_neg htu] at htask'
        exact h task' htask'
    | query =>
      by_cases htu : t = u
      · subst htu
        exfalso
        rcases (h task hu).1 with h1 | h1 | h1 <;> rw [hpc] at h1 <;>
          exact absurd h1 (by simp)
      · have hstep : stepTask s u =
            { s with queries := s.queries ++ [(u, task.root)],
                     tasks := setTask s.tasks u { task with pc := .wlock } } := by
          simp [stepTask, hu, hpc]
        rw [hstep]
        constructor
        · intro task' htask'
          simp only [setTask] at htask'
          rw [if_neg htu] at htask'
          exact h task' htask'
        · unfold queryCount
          simp only [List.filter_append, List.length_append]
          have hut : (u == t) = false := by
            simp
            intro hh
            exact htu hh.symm
          simp [hut]
    | wlock =>
      by_cases hl : s.lockHeld
      · have hstep : stepTask s u = s := by simp [stepTask, hu, hpc, hl]
        rw [hstep]
        exact ⟨h, rfl⟩
      · by_cases htu : t = u
        · subst htu
          exfalso
          rcases (h task hu).1 with h1 | h1 | h1 <;> rw [hpc] at h1 <;>
            exact absurd h1 (by simp)
        · have hstep : stepTask s u =
              { s with lockHeld := true,
                       tasks := setTask s.tasks u { task with pc := .write } } := by
            simp [stepTask, hu, hpc, hl]
          rw [hstep]
          refine ⟨?_, rfl⟩
          intro task' htask'
          simp only [setTask] at htask'
          rw [if_neg htu] at htask'
          exact h task' htask'
    | write =>
      by_cases htu : t = u
      · subst htu
        exfalso
        rcases (h task hu).1 with h1 | h1 | h1 <;> rw [hpc] at h1 <;>
          exact absurd h1 (by simp)
      · have hstep : stepTask s u =
            { s with lockHeld := false,
                     cache := fun q => if q = task.root then some task.ok else s.cache q,
                     tasks := setTask s.tasks u { task with pc := .done } } := by
          simp [stepTask, hu, hpc]
        rw [hstep]
        refine ⟨?_, rfl⟩
        intro task' htask'
        simp only [setTask] at htask'
        rw [if_neg htu] at htask'
        refine ⟨(h task' htask').1, ?_⟩
        intro hact
        have := (h task' htask').2 hact
        show (if task'.root = task.root then some task.ok else s.cache task'.root).isSome = true
        by_cases hr : task'.root = task.root
        · simp [hr]
        · simpa [hr] using this
    | done =>
      have hstep : stepTask s u = s := by simp [stepTask, hu, hpc]
      rw [hstep]
      exact ⟨h, rfl⟩

theorem settled_run (sched : List Nat) :
    ∀ (s : CacheMachine) (t : Nat), Settled s t →
      queryCount (runSched s sched) t = queryCount s t := by
  induction sched with
  | nil => intro s t _; rfl
  | cons u us ih =>
    intro s t h
    obtain ⟨h1, h2⟩ := settled_step s u t h
    calc queryCount (runSched (stepTask s u) us) t
        = queryCount (stepTask s u) t := ih _ t h1
      _ = queryCount s t := h2

/-- C5 as amended: the lock guards only the cache check and the write-back,
so two concurrent tasks that both miss on the same uncached root may each
run the external query (no coalescing; see the counterexample).  What the
code does guarantee: each task runs the query at most once, both successful
and failed outcomes are written back and cached roots are never evicted, and
a task whose locked check finds its root cached finishes without ever
querying. -/
theorem gitCache_discipline (roots : List (Path × Bool)) (sched : List Nat) :
    (∀ t, queryCount (runSched (startMachine roots) sched) t ≤ 1) ∧
    (∀ (s : CacheMachine) (r : Path), (s.cache r).isSome = true →
      ((runSched s sched).cache r).isSome = true) ∧
    (∀ (s : CacheMachine) (t : Nat), Settled s t →
      queryCount (runSched s sched) t = queryCount s t) := by
  refine ⟨?_, cache_isSome_run sched, settled_run sched⟩
  intro t
  have hinv := queryInv_run (startMachine roots) sched (queryInv_start roots)
  cases hx : (runSched (startMachine roots) sched).tasks t with
  | none =>
    rw [(hinv t).2 hx]
    omega
  | some task => exact ((hinv t).1 task hx).2

/-- Witness for the amended C5 at a concrete machine: one task, one root,
any schedule long enough to finish. -/
theorem gitCache_discipline_witness :
    (∀ t, queryCount
        (runSched (startMachine [(["r"], true)]) [0, 0, 0, 0, 0]) t ≤ 1) ∧
    (∀ (s : CacheMachine) (r : Path), (s.cache r).isSome = true →
      ((runSched s [0, 0, 0, 0, 0]).cache r).isSome = true) ∧
    (∀ (s : CacheMachine) (t : Nat), Settled s t →
      queryCount (runSched s [0, 0, 0, 0, 0]) t = queryCount s t) :=
  gitCache_discipline [(["r"], true)] [0, 0, 0, 0, 0]

/-- C9: if no argument yields any entry the process exits with failure
status; a directory argument whose read fails gets an error line and an
empty slot, while every other argument's slot holds the full processed
listing of its own directory — the slots are independent, so one failure
never affects a sibling's output. -/
theorem main_exit_and_partial_failure (lstatO : String → Option FileInfo)
    (globO : String → List String) (absO : String → Path) (dirFlag : Bool)
    (args : List String) (readDirO : Path → Option (List Entry))
    (selfParentO : Path → List Entry) (statusOf : Path → Option Stats)
    (opt : Options) (dirs : List Entry) (i : Nat) (d : Entry)
    (hd : dirs[i]? = some d) :
    (mainExit1 (collectEntries lstatO globO absO dirFlag args) = true ↔
      (collectEntries lstatO globO absO dirFlag args).files = [] ∧
      (collectEntries lstatO globO absO dirFlag args).dirs = []) ∧
    ((dirSections readDirO selfParentO statusOf opt dirs)[i]? =
      some (processDir readDirO selfParentO statusOf opt d)) ∧
    (readDirO d.path = none →
      processDir readDirO selfParentO statusOf opt d = none ∧
        d.path ∈ scanErrors readDirO dirs) ∧
    (∀ l, readDirO d.path = some l →
      processDir readDirO selfParentO statusOf opt d =
        some (sortEntries opt
          (if opt.long && opt.git then
            attachGitToDir statusOf d.path
              (if opt.all then selfParentO d.path ++ l
               else l.filter (fun e => ! isHidden e))
           else if opt.all then selfParentO d.path ++ l
                else l.filter (fun e => ! isHidden e)))) := by
  refine ⟨?_, ?_, ?_, ?_⟩
  · unfold mainExit1
    rw [Bool.and_eq_true, List.isEmpty_iff, List.isEmpty_iff]
    constructor
    · intro ⟨h1, h2⟩
      exact ⟨h2, h1⟩
    · intro ⟨h1, h2⟩
      exact ⟨h2, h1⟩
  · unfold dirSections
    rw [List.getElem?_map, hd]
    rfl
  · intro hfail
    constructor
    · unfold processDir
      rw [hfail]
    · unfold scanErrors
      apply List.mem_filterMap.mpr
      refine ⟨d, ?_, ?_⟩
      · have hget : dirs.get? i = some d := by
          simpa [List.get?_eq_getElem?] using hd
        exact List.get?_mem hget
      · rw [hfail]
        rfl
  · intro l hl
    unfold processDir
    rw [hl]

/-- Witness for C9, scenario D: the failing first directory argument gets an
empty slot and an error line, independent of the sibling slots. -/
theorem main_exit_and_partial_failure_witness :
    dirsD[0]? = some (dirEntry "bad") ∧
    ((mainExit1 (collectEntries lstatNone globNone absTriv false []) = true ↔
        (collectEntries lstatNone globNone absTriv false []).files = [] ∧
        (collectEntries lstatNone globNone absTriv false []).dirs = []) ∧
      ((dirSections readDirD selfParentNone statusOfClean optBase dirsD)[0]? =
        some (processDir readDirD selfParentNone statusOfClean optBase
          (dirEntry "bad"))) ∧
      (readDirD (dirEntry "bad").path = none →
        processDir readDirD selfParentNone statusOfClean optBase
            (dirEntry "bad") = none ∧
          (dirEntry "bad").path ∈ scanErrors readDirD dirsD) ∧
      (∀ l, readDirD (dirEntry "bad").path = some l →
        processDir readDirD selfParentNone statusOfClean optBase
            (dirEntry "bad") =
          some (sortEntries optBase
            (if optBase.long && optBase.git then
              attachGitToDir statusOfClean (dirEntry "bad").path
                (if optBase.all then selfParentNone (dirEntry "bad").path ++ l
                 else l.filter (fun e => ! isHidden e))
             else if optBase.all then selfParentNone (dirEntry "bad").path ++ l
                  else l.filter (fun e => ! isHidden e))))) :=
  ⟨by decide,
    main_exit_and_partial_failure lstatNone globNone absTriv false []
      readDirD selfParentNone statusOfClean optBase dirsD 0 (dirEntry "bad")
      (by decide)⟩

end Myls
